import Mathlib

/-!
Verification of `src/prime.c` (pico_prime), a Raspberry Pi Pico benchmark
that repeatedly computes the first `PRIMECOUNT` primes by trial division
and reports per-run and average elapsed times.

The development shallowly embeds the two relevant pieces of the program:

* `primer` (lines 119-176): the prime generator.  Its local array of
  32-bit unsigned primes is embedded as a `List ℕ` that grows by one on
  every store `primes[index] = candidate`; for the reachable values
  (all below 2^32 for the reference capacity) the `ℕ` arithmetic agrees
  exactly with the `uint32_t` arithmetic of the source.  The C `while`
  loop is embedded as a fuel-indexed iteration `loop`; every theorem
  below either quantifies over all fuels (so it covers every iteration
  of the C loop) or evaluates a run that demonstrably reached the exit
  condition `index >= capacity`, where further fuel does not change the
  state.  The spec's `generate(capacity)` is `primer` with the
  compile-time constant `PRIMECOUNT` turned into the parameter
  `capacity`, exactly as in spec section 4.1.
* `main`'s trigger handling (lines 93-107): the pass counter, the
  accumulated runtime and the per-trigger reports.  The C `float`
  arithmetic is embedded exactly over `ℚ`; the `uint64_t` microsecond
  timer subtraction of line 174 is embedded with an explicit `% 2^64`.

A second, lower-level embedding of `primer` (`primerArrBody`, `loopArr`)
models the uninitialised local array `uint32_t primes[PRIMECOUNT]` as a
total function `ℕ → ℕ` whose cells beyond the filled portion hold
arbitrary junk (whatever a previous call left on the stack); it is used
to prove that the generator has no hidden state across calls.
-/

/-- Tail-recursive integer square root: starting from `r`, keep
incrementing while `(r + 1) ^ 2 ≤ c`.  This kernel-reducible form is
proved equal to `Nat.sqrt` in `isqrtLoop_eq_sqrt` below. -/
def isqrtLoop (c : ℕ) : ℕ → ℕ → ℕ
  | 0, r => r
  | fuel + 1, r => if (r + 1) * (r + 1) ≤ c then isqrtLoop c fuel (r + 1) else r

/-- Search bound of line 147, `searchto = trunc(sqrt(candidate))`.  For
every value reachable here (`candidate < 2^32`) the double-precision
`trunc(sqrt((double)candidate))` equals the integer square root, which
is what this computes (`searchLimit_eq_sqrt`). -/
def searchLimit (candidate : ℕ) : ℕ := isqrtLoop candidate candidate 0

/-- Inner divisor scan of lines 151-160: walk the stored primes starting
at buffer index 1 while `primes[count] <= searchto`; report `false`
(composite) as soon as a scanned prime divides the candidate, `true`
otherwise.  The walk is expressed as structural recursion over the
buffer tail `primes.drop 1`. -/
def isPrimeScan (searchto candidate : ℕ) : List ℕ → Bool
  | [] => true
  | p :: ps =>
    if p ≤ searchto then
      if candidate % p = 0 then false else isPrimeScan searchto candidate ps
    else true

/-- Proposition: the divisor scan terminates strictly inside the given
buffer tail, i.e. some scanned cell either exceeds `searchto` (loop
condition fails) or divides the candidate (break).  When this holds, the
C loop of lines 151-160 never evaluates `primes[count]` for a `count`
beyond the cells listed here. -/
def scanStops (searchto candidate : ℕ) : List ℕ → Prop
  | [] => False
  | p :: ps => searchto < p ∨ candidate % p = 0 ∨ scanStops searchto candidate ps

/-- State of one `primer` invocation: the filled portion of the `primes`
array, the index of the last filled slot, and the current candidate. -/
structure PrimerState where
  primes : List ℕ
  index : ℕ
  candidate : ℕ
deriving DecidableEq, Repr

/-- The seeded state after lines 130-139: `primes[0..3] = 2,3,5,7`,
`index = 3`, `candidate = primes[index] = 7`. -/
def primerInit : PrimerState := PrimerState.mk [2, 3, 5, 7] 3 7

/-- One iteration of the loop body, lines 142-166: `candidate += 2`,
compute the search bound, run the divisor scan from buffer index 1, and
on success `index++; primes[index] = candidate` (which appends to the
filled portion, since `index` pointed at the last filled slot). -/
def primerBody (s : PrimerState) : PrimerState :=
  if isPrimeScan (searchLimit (s.candidate + 2)) (s.candidate + 2) (s.primes.drop 1) then
    PrimerState.mk (s.primes ++ [s.candidate + 2]) (s.index + 1) (s.candidate + 2)
  else
    PrimerState.mk s.primes s.index (s.candidate + 2)

/-- The `while (index < capacity)` loop of line 142, iterated with
explicit fuel.  Once the exit condition holds the state is returned
unchanged, so any sufficiently large fuel yields the loop's result. -/
def loop (capacity : ℕ) : ℕ → PrimerState → PrimerState
  | 0, s => s
  | fuel + 1, s => if s.index < capacity then loop capacity fuel (primerBody s) else s

/-- The function `primer` of line 119, with the compile-time constant
`PRIMECOUNT` generalised to the parameter `capacity` (the spec's
`generate(capacity)`).  The fuel `2 ^ (capacity + 1)` exceeds the
iteration count for every capacity (by Bertrand's postulate the
(n+1)-st prime is below `2 ^ (n + 1)`, and the loop advances the
candidate by 2 on every iteration); surplus fuel is unused once the
exit condition is reached. -/
def primer (capacity : ℕ) : PrimerState := loop capacity (2 ^ (capacity + 1)) primerInit

/-- Elapsed time of line 174, `(time_us_64() - start) / 1000000.0`: the
`uint64_t` subtraction is embedded with an explicit `% 2^64`, the float
division exactly over `ℚ`. -/
def elapsedSeconds (start stop : ℕ) : ℚ :=
  ((((stop : ℤ) - (start : ℤ)) % (2 : ℤ) ^ 64).toNat : ℚ) / 1000000

/-- Process-wide trial statistics of `main` (lines 82-83): `passcount`
and the accumulated `total_runs`. -/
structure TrialStats where
  passcount : ℕ
  total_runs : ℚ
deriving DecidableEq

/-- One report line of `main`: the instantaneous runtime is printed on
every trigger (lines 101 and 106); the pass number and the running
average only on triggers after the first (line 106). -/
structure Report where
  runtime : ℚ
  pass : Option ℕ
  average : Option ℚ
deriving DecidableEq

/-- Statistics before the first trigger: `passcount = 0` (line 88).
`total_runs` is uninitialised in the C source but provably written
before it is first read (the `passcount == 1` branch assigns it), so
seeding it with 0 is immaterial. -/
def initialStats : TrialStats := TrialStats.mk 0 0

/-- Handling of one detected button press, lines 93-107: increment
`passcount`; on the first pass record `total_runs = this_run` and print
the runtime alone, on later passes accumulate `total_runs += this_run`
and print runtime, pass number and `total_runs / passcount`. -/
def onTrigger (s : TrialStats) (this_run : ℚ) : TrialStats × Report :=
  let passcount := s.passcount + 1
  if passcount = 1 then
    (TrialStats.mk passcount this_run, Report.mk this_run none none)
  else
    (TrialStats.mk passcount (s.total_runs + this_run),
      Report.mk this_run (some passcount)
        (some ((s.total_runs + this_run) / (passcount : ℚ))))

/-- A whole sequence of triggers: each list entry is the pair of
microsecond timer readings (start, stop) surrounding one `primer` call;
the fold threads the process-wide `TrialStats` and collects the emitted
reports in order. -/
def runTrials (ps : List (ℕ × ℕ)) : TrialStats × List Report :=
  ps.foldl
    (fun acc p =>
      ((onTrigger acc.1 (elapsedSeconds p.1 p.2)).1,
        acc.2 ++ [(onTrigger acc.1 (elapsedSeconds p.1 p.2)).2]))
    (initialStats, [])

/-! ### Array-level embedding of `primer`

The local array `uint32_t primes[PRIMECOUNT]` (line 120) is allocated on
the stack and not initialised: the cells beyond the filled portion hold
whatever earlier computation (e.g. a previous `primer` call) left
behind.  To reason about hidden state across calls, this second
embedding models the array as a total function `ℕ → ℕ` whose initial
value is an arbitrary `junk` function, and performs exactly the reads
and writes of the source. -/

/-- State of the array-level embedding: the full memory of the `primes`
array plus `index` and `candidate`. -/
structure ArrState where
  mem : ℕ → ℕ
  index : ℕ
  candidate : ℕ

/-- The seeding of lines 130-136 performed on an arbitrary initial array
content: `primes[0] = 2; primes[1] = 3; primes[2] = 5; primes[3] = 7`,
then `index = 3`, `candidate = primes[index] = 7`. -/
def primerArrInit (junk : ℕ → ℕ) : ArrState :=
  ArrState.mk
    (Function.update (Function.update (Function.update (Function.update junk 0 2) 1 3) 2 5) 3 7)
    3 7

/-- Array-level divisor scan of lines 151-160: `count` starts at 1 and
the loop reads `primes[count]` on each condition test.  The C loop has
no fuel; here the recursion is fuel-indexed, and the caller passes fuel
`index + 2`, which the invariant proofs show is never exhausted (the
scan always stops at a cell `count ≤ index`, see `scan_in_bounds`). -/
def scanArr (mem : ℕ → ℕ) (searchto candidate : ℕ) : ℕ → ℕ → Bool
  | 0, _ => true
  | fuel + 1, count =>
    if mem count ≤ searchto then
      if candidate % mem count = 0 then false
      else scanArr mem searchto candidate fuel (count + 1)
    else true

/-- Array-level loop body, lines 142-166, performing the store
`primes[index] = candidate` as a pointwise memory update. -/
def primerArrBody (a : ArrState) : ArrState :=
  if scanArr a.mem (searchLimit (a.candidate + 2)) (a.candidate + 2) (a.index + 2) 1 then
    ArrState.mk (Function.update a.mem (a.index + 1) (a.candidate + 2)) (a.index + 1)
      (a.candidate + 2)
  else
    ArrState.mk a.mem a.index (a.candidate + 2)

/-- Array-level `while (index < capacity)` loop with explicit fuel. -/
def loopArr (capacity : ℕ) : ℕ → ArrState → ArrState
  | 0, a => a
  | fuel + 1, a => if a.index < capacity then loopArr capacity fuel (primerArrBody a) else a

/-- The sequence of primes held by the filled portion of the array,
cells `0 .. index`. -/
def arrPrimes (a : ArrState) : List ℕ := (List.range (a.index + 1)).map a.mem

/-- Overlay of the list-level buffer on arbitrary junk memory: cell `i`
holds the i-th stored prime when `i` is filled and the junk value
otherwise.  This is the simulation relation between the two embeddings
of the `primes` array. -/
def memOf (l : List ℕ) (junk : ℕ → ℕ) : ℕ → ℕ :=
  fun i => if i < l.length then l.getD i 0 else junk i

/-! ### Basic lemmas -/

lemma isqrtLoop_eq_sqrt (c : ℕ) :
    ∀ (fuel r : ℕ), r ≤ Nat.sqrt c → Nat.sqrt c ≤ r + fuel → isqrtLoop c fuel r = Nat.sqrt c := by
  intro fuel
  induction fuel with
  | zero => intro r h1 h2; simp [isqrtLoop]; omega
  | succ n ih =>
    intro r h1 h2
    by_cases h : (r + 1) * (r + 1) ≤ c
    · have hr1 : r + 1 ≤ Nat.sqrt c := Nat.le_sqrt.mpr h
      simp only [isqrtLoop, if_pos h]
      exact ih (r + 1) hr1 (by omega)
    · have hs : Nat.sqrt c < r + 1 := by
        by_contra hc
        exact h (Nat.le_sqrt.mp (by omega))
      simp only [isqrtLoop, if_neg h]
      omega

lemma searchLimit_eq_sqrt (c : ℕ) : searchLimit c = Nat.sqrt c :=
  isqrtLoop_eq_sqrt c c 0 (Nat.zero_le _) (by simpa using Nat.sqrt_le_self c)

/-- The scan returns `true` when no scanned cell divides the candidate. -/
lemma isPrimeScan_eq_true_of_no_divisor (searchto candidate : ℕ) :
    ∀ l : List ℕ, (∀ p ∈ l, candidate % p ≠ 0) → isPrimeScan searchto candidate l = true := by
  intro l
  induction l with
  | nil => intro _; rfl
  | cons p ps ih =>
    intro h
    by_cases hle : p ≤ searchto
    · have hp : candidate % p ≠ 0 := h p (List.mem_cons_self p ps)
      simp only [isPrimeScan, if_pos hle, if_neg hp]
      exact ih fun q hq => h q (List.mem_cons_of_mem p hq)
    · simp [isPrimeScan, if_neg hle]

/-- The scan returns `false` when the (sorted) scanned cells contain a
divisor of the candidate that is below the search bound. -/
lemma isPrimeScan_eq_false_of_divisor (searchto candidate : ℕ) :
    ∀ l : List ℕ, List.Sorted (· < ·) l →
      ∀ p ∈ l, p ≤ searchto → candidate % p = 0 → isPrimeScan searchto candidate l = false := by
  intro l
  induction l with
  | nil => intro _ p hp; exact absurd hp (List.not_mem_nil p)
  | cons q qs ih =>
    intro hsort p hp hple hdvd
    have hqs : List.Sorted (· < ·) qs := hsort.of_cons
    rcases List.mem_cons.mp hp with heq | htail
    · subst heq
      simp [isPrimeScan, if_pos hple, hdvd]
    · have hqp : q < p := (List.rel_of_sorted_cons hsort) p htail
      have hqle : q ≤ searchto := le_trans (le_of_lt hqp) hple
      by_cases hq : candidate % q = 0
      · simp [isPrimeScan, if_pos hqle, hq]
      · simp only [isPrimeScan, if_pos hqle, if_neg hq]
        exact ih hqs p htail hple hdvd

/-- The scan stops inside the list as soon as some cell exceeds the
search bound or divides the candidate. -/
lemma scanStops_of_exists_gt (searchto candidate : ℕ) :
    ∀ l : List ℕ, (∃ x ∈ l, searchto < x) → scanStops searchto candidate l := by
  intro l
  induction l with
  | nil => rintro ⟨x, hx, _⟩; exact absurd hx (List.not_mem_nil x)
  | cons q qs ih =>
    rintro ⟨x, hx, hgt⟩
    rcases List.mem_cons.mp hx with heq | htail
    · subst heq; exact Or.inl hgt
    · by_cases hq : searchto < q
      · exact Or.inl hq
      · exact Or.inr (Or.inr (ih ⟨x, htail, hgt⟩))

/-- In a strictly sorted list whose head is `2`, every member other
than `2` sits in the tail. -/
lemma mem_tail_of_mem_of_ne (l : List ℕ) (hsort : List.Sorted (· < ·) l)
    (h2 : ∀ p, p ∈ l → 2 ≤ p) (hmem2 : 2 ∈ l) :
    ∀ p, p ∈ l → p ≠ 2 → p ∈ l.drop 1 := by
  cases l with
  | nil => exact absurd hmem2 (List.not_mem_nil 2)
  | cons q qs =>
    intro p hp hne
    have hq2 : 2 ≤ q := h2 q (List.mem_cons_self q qs)
    have hqeq : q = 2 := by
      rcases List.mem_cons.mp hmem2 with heq | htail
      · omega
      · have := (List.rel_of_sorted_cons hsort) 2 htail
        omega
    rcases List.mem_cons.mp hp with heq | htail
    · exact absurd (heq.trans hqeq) hne
    · simpa using htail

/-! ### The generation invariant

`primerInv` is the buffer invariant of spec section 3: at every moment
the filled portion `primes[0..index]` holds exactly the primes up to the
current candidate, in strictly increasing order, and the candidate stays
odd and at least 7. -/

/-- Invariant of the generation loop. -/
def primerInv (s : PrimerState) : Prop :=
  List.Sorted (· < ·) s.primes
    ∧ (∀ p, p ∈ s.primes ↔ (Nat.Prime p ∧ p ≤ s.candidate))
    ∧ s.primes.length = s.index + 1
    ∧ s.candidate % 2 = 1
    ∧ 7 ≤ s.candidate

lemma primerInv_init : primerInv primerInit := by
  refine ⟨by decide, fun p => ?_, by decide, by decide, by decide⟩
  show p ∈ [2, 3, 5, 7] ↔ Nat.Prime p ∧ p ≤ 7
  constructor
  · intro hp
    have hcases : p = 2 ∨ p = 3 ∨ p = 5 ∨ p = 7 := by simpa using hp
    rcases hcases with h | h | h | h <;> subst h <;> exact ⟨by norm_num, by norm_num⟩
  · rintro ⟨hp, hle⟩
    have h2 : 2 ≤ p := hp.two_le
    interval_cases p <;> first
      | decide
      | norm_num at hp

lemma two_mem_of_inv (s : PrimerState) (h : primerInv s) : 2 ∈ s.primes :=
  (h.2.1 2).mpr ⟨Nat.prime_two, by have := h.2.2.2.2; omega⟩

lemma mem_drop_one_of_inv (s : PrimerState) (h : primerInv s) (p : ℕ)
    (hp : p ∈ s.primes) (hne : p ≠ 2) : p ∈ s.primes.drop 1 := by
  refine mem_tail_of_mem_of_ne s.primes h.1 (fun q hq => ((h.2.1 q).mp hq).1.two_le)
    (two_mem_of_inv s h) p hp hne

lemma sorted_drop_one_of_inv (s : PrimerState) (h : primerInv s) :
    List.Sorted (· < ·) (s.primes.drop 1) :=
  List.Pairwise.sublist (List.drop_sublist 1 s.primes) h.1

/-- Correctness of the divisor scan: under the invariant, the scan of
lines 151-160 run on the next candidate returns `true` exactly when the
candidate is prime. -/
lemma isPrimeScan_iff_prime (s : PrimerState) (h : primerInv s) :
    (isPrimeScan (searchLimit (s.candidate + 2)) (s.candidate + 2) (s.primes.drop 1) = true
      ↔ Nat.Prime (s.candidate + 2)) := by
  have hsort := h.1
  have hmem := h.2.1
  have hodd : s.candidate % 2 = 1 := h.2.2.2.1
  have hge : 7 ≤ s.candidate := h.2.2.2.2
  rw [searchLimit_eq_sqrt]
  constructor
  · -- contrapositive: a composite candidate is caught by the scan
    intro hscan
    by_contra hnp
    have hne1 : s.candidate + 2 ≠ 1 := by omega
    have hpp : Nat.Prime (Nat.minFac (s.candidate + 2)) := Nat.minFac_prime hne1
    have hpdvd : Nat.minFac (s.candidate + 2) ∣ s.candidate + 2 :=
      Nat.minFac_dvd (s.candidate + 2)
    have hpsq : Nat.minFac (s.candidate + 2) * Nat.minFac (s.candidate + 2)
        ≤ s.candidate + 2 := by
      have := Nat.minFac_sq_le_self (n := s.candidate + 2) (by omega) hnp
      simpa [Nat.pow_two] using this
    have hple : Nat.minFac (s.candidate + 2) ≤ Nat.sqrt (s.candidate + 2) :=
      Nat.le_sqrt.mpr hpsq
    have hne2 : Nat.minFac (s.candidate + 2) ≠ 2 := by
      intro h2
      have hmod2 := Nat.dvd_iff_mod_eq_zero.mp hpdvd
      rw [h2] at hmod2
      omega
    have hsqle : Nat.sqrt (s.candidate + 2) ≤ s.candidate := by
      have hlt : Nat.sqrt (s.candidate + 2) < s.candidate + 1 :=
        Nat.sqrt_lt.mpr (by nlinarith)
      omega
    have hpmem : Nat.minFac (s.candidate + 2) ∈ s.primes :=
      (hmem _).mpr ⟨hpp, le_trans hple hsqle⟩
    have hptail : Nat.minFac (s.candidate + 2) ∈ s.primes.drop 1 :=
      mem_drop_one_of_inv s h _ hpmem hne2
    have hmod : (s.candidate + 2) % Nat.minFac (s.candidate + 2) = 0 :=
      Nat.dvd_iff_mod_eq_zero.mp hpdvd
    have hfalse := isPrimeScan_eq_false_of_divisor (Nat.sqrt (s.candidate + 2))
      (s.candidate + 2) (s.primes.drop 1) (sorted_drop_one_of_inv s h) _ hptail hple hmod
    rw [hfalse] at hscan
    exact Bool.false_ne_true hscan
  · -- a prime candidate is divided by none of the stored primes
    intro hp
    refine isPrimeScan_eq_true_of_no_divisor _ _ _ fun q hq hmod => ?_
    have hqmem : q ∈ s.primes := List.mem_of_mem_drop hq
    obtain ⟨hqp, hqle⟩ := (hmem q).mp hqmem
    have hqdvd : q ∣ s.candidate + 2 := Nat.dvd_iff_mod_eq_zero.mpr hmod
    rcases Nat.Prime.eq_one_or_self_of_dvd hp q hqdvd with h1 | hself
    · exact absurd h1 (Nat.Prime.ne_one hqp)
    · have h2q : 2 ≤ q := hqp.two_le
      omega

/-- An even number above 2 is not prime; applied to `candidate + 1`. -/
lemma not_prime_succ_of_odd (c : ℕ) (hodd : c % 2 = 1) (hge : 7 ≤ c) :
    ¬ Nat.Prime (c + 1) := by
  intro hp
  have heven : Even (c + 1) := by
    refine Nat.even_iff.mpr ?_
    omega
  have := (Nat.Prime.even_iff hp).mp heven
  omega

/-- Preservation: a loop-body step keeps the invariant. -/
lemma primerInv_body (s : PrimerState) (h : primerInv s) : primerInv (primerBody s) := by
  have hscan := isPrimeScan_iff_prime s h
  obtain ⟨hsort, hmem, hlen, hodd, hge⟩ := h
  have hnp1 : ¬ Nat.Prime (s.candidate + 1) := not_prime_succ_of_odd s.candidate hodd hge
  by_cases hp : Nat.Prime (s.candidate + 2)
  · have hb : isPrimeScan (searchLimit (s.candidate + 2)) (s.candidate + 2)
        (s.primes.drop 1) = true := hscan.mpr hp
    have hbody : primerBody s
        = PrimerState.mk (s.primes ++ [s.candidate + 2]) (s.index + 1) (s.candidate + 2) := by
      simp only [primerBody, hb]
      simp
    rw [hbody]
    refine ⟨?_, ?_, ?_, ?_, ?_⟩
    · show List.Sorted (· < ·) (s.primes ++ [s.candidate + 2])
      refine (List.pairwise_append).mpr ⟨hsort, List.pairwise_singleton _ _, ?_⟩
      intro a ha b hb'
      have hb2 : b = s.candidate + 2 := by simpa using hb'
      have ha2 := ((hmem a).mp ha).2
      omega
    · intro p
      show p ∈ s.primes ++ [s.candidate + 2] ↔ Nat.Prime p ∧ p ≤ s.candidate + 2
      rw [List.mem_append, List.mem_singleton, hmem]
      constructor
      · rintro (⟨hpp, hple⟩ | rfl)
        · exact ⟨hpp, by omega⟩
        · exact ⟨hp, le_refl _⟩
      · rintro ⟨hpp, hple⟩
        rcases Nat.lt_or_ge p (s.candidate + 1) with hlt | hge2
        · exact Or.inl ⟨hpp, by omega⟩
        · right
          rcases Nat.eq_or_lt_of_le hge2 with heq | hlt2
          · exact absurd (heq ▸ hpp) hnp1
          · omega
    · show (s.primes ++ [s.candidate + 2]).length = (s.index + 1) + 1
      simp [hlen]
    · show (s.candidate + 2) % 2 = 1
      omega
    · show 7 ≤ s.candidate + 2
      omega
  · have hb : isPrimeScan (searchLimit (s.candidate + 2)) (s.candidate + 2)
        (s.primes.drop 1) = false :=
      Bool.eq_false_iff.mpr fun ht => hp (hscan.mp ht)
    have hbody : primerBody s = PrimerState.mk s.primes s.index (s.candidate + 2) := by
      simp only [primerBody, hb]
      simp
    rw [hbody]
    refine ⟨hsort, ?_, hlen, ?_, ?_⟩
    · intro p
      show p ∈ s.primes ↔ Nat.Prime p ∧ p ≤ s.candidate + 2
      rw [hmem p]
      constructor
      · rintro ⟨hpp, hple⟩; exact ⟨hpp, by omega⟩
      · rintro ⟨hpp, hple⟩
        refine ⟨hpp, ?_⟩
        rcases Nat.lt_or_ge p (s.candidate + 1) with hlt | hge2
        · omega
        · rcases Nat.eq_or_lt_of_le hge2 with heq | hlt2
          · exact absurd (heq ▸ hpp) hnp1
          · have hpeq : p = s.candidate + 2 := by omega
            exact absurd (hpeq ▸ hpp) hp
    · show (s.candidate + 2) % 2 = 1
      omega
    · show 7 ≤ s.candidate + 2
      omega

/-- The invariant holds at every iteration of the loop, for every
capacity and every fuel. -/
lemma primerInv_loop (capacity : ℕ) :
    ∀ (fuel : ℕ) (s : PrimerState), primerInv s → primerInv (loop capacity fuel s) := by
  intro fuel
  induction fuel with
  | zero => intro s hs; exact hs
  | succ n ih =>
    intro s hs
    by_cases h : s.index < capacity
    · simp only [loop, if_pos h]
      exact ih (primerBody s) (primerInv_body s hs)
    · simp only [loop, if_neg h]
      exact hs

/-! ### The divisor scan stays inside the filled buffer

By Bertrand's postulate there is a prime strictly between
`sqrt(candidate)` and `candidate`, so the largest stored prime exceeds
the search bound and the scan's loop condition fails no later than the
last filled cell. -/

lemma scanStops_of_inv (s : PrimerState) (h : primerInv s) :
    scanStops (searchLimit (s.candidate + 2)) (s.candidate + 2) (s.primes.drop 1) := by
  have hmem := h.2.1
  have hodd : s.candidate % 2 = 1 := h.2.2.2.1
  have hge : 7 ≤ s.candidate := h.2.2.2.2
  apply scanStops_of_exists_gt
  obtain ⟨p, hpp, hlt, hle⟩ :=
    Nat.exists_prime_lt_and_le_two_mul ((s.candidate - 1) / 2) (by omega)
  have hceq : s.candidate = 2 * ((s.candidate - 1) / 2) + 1 := by omega
  have hpc : p ≤ s.candidate := by omega
  have hpmem : p ∈ s.primes := (hmem p).mpr ⟨hpp, hpc⟩
  have hne2 : p ≠ 2 := by omega
  have hptail : p ∈ s.primes.drop 1 := mem_drop_one_of_inv s h p hpmem hne2
  refine ⟨p, hptail, ?_⟩
  rw [searchLimit_eq_sqrt]
  have hsq : Nat.sqrt (s.candidate + 2) ≤ (s.candidate - 1) / 2 := by
    have hlt2 : Nat.sqrt (s.candidate + 2) < (s.candidate - 1) / 2 + 1 := by
      apply Nat.sqrt_lt.mpr
      nlinarith [hceq, (by omega : 3 ≤ (s.candidate - 1) / 2)]
    omega
  omega

/-! ### Simulation between the array-level and list-level embeddings -/

lemma memOf_lt (P : List ℕ) (junk : ℕ → ℕ) (i : ℕ) (hi : i < P.length) :
    memOf P junk i = P.getD i 0 := by
  simp [memOf, hi]

lemma memOf_ge (P : List ℕ) (junk : ℕ → ℕ) (i : ℕ) (hi : P.length ≤ i) :
    memOf P junk i = junk i := by
  simp [memOf, Nat.not_lt.mpr hi]

/-- Under `scanStops`, the array-level scan of lines 151-160 computes
the same Boolean as the list-level scan, reading only filled cells. -/
lemma scanArr_eq_isPrimeScan (P : List ℕ) (junk : ℕ → ℕ) (searchto c : ℕ) :
    ∀ (fuel count : ℕ), count < P.length →
      scanStops searchto c (P.drop count) →
      (P.drop count).length ≤ fuel →
      scanArr (memOf P junk) searchto c fuel count = isPrimeScan searchto c (P.drop count) := by
  intro fuel
  induction fuel with
  | zero =>
    intro count hcount hstop hlen
    have hnil : P.drop count = [] := List.eq_nil_of_length_eq_zero (by simp at hlen ⊢; omega)
    rw [hnil] at hstop
    exact hstop.elim
  | succ n ih =>
    intro count hcount hstop hlen
    have hdrop : P.drop count = P.getD count 0 :: P.drop (count + 1) := by
      rw [List.drop_eq_getElem_cons hcount]
      rw [List.getD_eq_getElem P 0 hcount]
    have hmo : memOf P junk count = P.getD count 0 := memOf_lt P junk count hcount
    rw [hdrop] at hstop ⊢
    simp only [scanArr, isPrimeScan, hmo]
    by_cases h1 : P.getD count 0 ≤ searchto
    · rw [if_pos h1, if_pos h1]
      by_cases h2 : c % P.getD count 0 = 0
      · rw [if_pos h2, if_pos h2]
      · rw [if_neg h2, if_neg h2]
        have hstop2 : scanStops searchto c (P.drop (count + 1)) := by
          rcases hstop with hgt | hdvd | htail
          · omega
          · exact absurd hdvd h2
          · exact htail
        have hcount2 : count + 1 < P.length := by
          by_contra hc
          have hnil : P.drop (count + 1) = [] :=
            List.eq_nil_of_length_eq_zero (by simp; omega)
          rw [hnil] at hstop2
          exact hstop2.elim
        exact ih (count + 1) hcount2 hstop2 (by simp at hlen ⊢; omega)
    · rw [if_neg h1, if_neg h1]

/-- Storing at the first unfilled cell extends the overlay by one. -/
lemma update_memOf (P : List ℕ) (junk : ℕ → ℕ) (v : ℕ) :
    Function.update (memOf P junk) P.length v = memOf (P ++ [v]) junk := by
  funext i
  rcases Nat.lt_trichotomy i P.length with hlt | heq | hgt
  · rw [Function.update_noteq (by omega)]
    rw [memOf_lt P junk i hlt, memOf_lt (P ++ [v]) junk i (by simp; omega)]
    rw [List.getD_append]
    exact hlt
  · subst heq
    rw [Function.update_same]
    rw [memOf_lt (P ++ [v]) junk P.length (by simp)]
    simp
  · rw [Function.update_noteq (by omega)]
    rw [memOf_ge P junk i (by omega), memOf_ge (P ++ [v]) junk i (by simp; omega)]

/-- The invariant forces at least two filled cells. -/
lemma one_lt_length_of_inv (s : PrimerState) (h : primerInv s) : 1 < s.primes.length := by
  have h2 : 2 ∈ s.primes := two_mem_of_inv s h
  have h7 : 7 ∈ s.primes := (h.2.1 7).mpr ⟨by norm_num, h.2.2.2.2⟩
  match hl : s.primes with
  | [] => rw [hl] at h2; exact absurd h2 (List.not_mem_nil 2)
  | [x] =>
    rw [hl] at h2 h7
    have e2 : (2 : ℕ) = x := by simpa using h2
    have e7 : (7 : ℕ) = x := by simpa using h7
    omega
  | x :: y :: t => simp

/-- One array-level body step simulates one list-level body step. -/
lemma primerArrBody_eq (s : PrimerState) (junk : ℕ → ℕ) (h : primerInv s) :
    primerArrBody (ArrState.mk (memOf s.primes junk) s.index s.candidate)
      = ArrState.mk (memOf (primerBody s).primes junk) (primerBody s).index
          (primerBody s).candidate := by
  have hlen : s.primes.length = s.index + 1 := h.2.2.1
  have hscan : scanArr (memOf s.primes junk) (searchLimit (s.candidate + 2))
      (s.candidate + 2) (s.index + 2) 1
      = isPrimeScan (searchLimit (s.candidate + 2)) (s.candidate + 2) (s.primes.drop 1) := by
    apply scanArr_eq_isPrimeScan
    · exact one_lt_length_of_inv s h
    · exact scanStops_of_inv s h
    · simp [hlen]
  by_cases hb : isPrimeScan (searchLimit (s.candidate + 2)) (s.candidate + 2)
      (s.primes.drop 1) = true
  · have hbody : primerBody s
        = PrimerState.mk (s.primes ++ [s.candidate + 2]) (s.index + 1) (s.candidate + 2) := by
      simp only [primerBody, hb]
      simp
    rw [hbody]
    show primerArrBody (ArrState.mk (memOf s.primes junk) s.index s.candidate)
      = ArrState.mk (memOf (s.primes ++ [s.candidate + 2]) junk) (s.index + 1)
          (s.candidate + 2)
    simp only [primerArrBody]
    rw [hscan, hb]
    simp only [if_pos]
    have hupd : Function.update (memOf s.primes junk) (s.index + 1) (s.candidate + 2)
        = memOf (s.primes ++ [s.candidate + 2]) junk := by
      rw [← hlen]
      exact update_memOf s.primes junk (s.candidate + 2)
    rw [hupd]
  · have hb' : isPrimeScan (searchLimit (s.candidate + 2)) (s.candidate + 2)
        (s.primes.drop 1) = false := Bool.eq_false_iff.mpr hb
    have hbody : primerBody s = PrimerState.mk s.primes s.index (s.candidate + 2) := by
      simp only [primerBody, hb']
      simp
    rw [hbody]
    simp only [primerArrBody]
    rw [hscan, hb']
    simp

/-- The array-level loop simulates the list-level loop from any
invariant state, for every fuel. -/
lemma loopArr_eq_loop (capacity : ℕ) :
    ∀ (fuel : ℕ) (s : PrimerState) (junk : ℕ → ℕ), primerInv s →
      loopArr capacity fuel (ArrState.mk (memOf s.primes junk) s.index s.candidate)
        = ArrState.mk (memOf (loop capacity fuel s).primes junk) (loop capacity fuel s).index
            (loop capacity fuel s).candidate := by
  intro fuel
  induction fuel with
  | zero => intro s junk hs; rfl
  | succ n ih =>
    intro s junk hs
    by_cases h : s.index < capacity
    · have harr : loopArr capacity (n + 1) (ArrState.mk (memOf s.primes junk) s.index s.candidate)
          = loopArr capacity n (primerArrBody (ArrState.mk (memOf s.primes junk) s.index s.candidate)) := by
        simp only [loopArr]
        rw [if_pos h]
      have hlst : loop capacity (n + 1) s = loop capacity n (primerBody s) := by
        simp only [loop]
        rw [if_pos h]
      rw [harr, hlst, primerArrBody_eq s junk hs]
      exact ih (primerBody s) junk (primerInv_body s hs)
    · have harr : loopArr capacity (n + 1) (ArrState.mk (memOf s.primes junk) s.index s.candidate)
          = ArrState.mk (memOf s.primes junk) s.index s.candidate := by
        simp only [loopArr]
        rw [if_neg h]
      have hlst : loop capacity (n + 1) s = s := by
        simp only [loop]
        rw [if_neg h]
      rw [harr, hlst]

/-- The seeding writes of lines 130-136 produce exactly the overlay of
the list-level seed over the junk. -/
lemma primerArrInit_eq (junk : ℕ → ℕ) :
    primerArrInit junk = ArrState.mk (memOf [2, 3, 5, 7] junk) 3 7 := by
  have hmem : Function.update (Function.update (Function.update (Function.update junk 0 2) 1 3) 2 5) 3 7
      = memOf [2, 3, 5, 7] junk := by
    funext i
    match i with
    | 0 => simp [Function.update, memOf]
    | 1 => simp [Function.update, memOf]
    | 2 => simp [Function.update, memOf]
    | 3 => simp [Function.update, memOf]
    | (n + 4) =>
      have h0 : n + 4 ≠ 0 := by omega
      have h1 : n + 4 ≠ 1 := by omega
      have h2 : n + 4 ≠ 2 := by omega
      have h3 : n + 4 ≠ 3 := by omega
      have h4 : ¬ (n + 4 < ([2, 3, 5, 7] : List ℕ).length) := by simp
      rw [Function.update_noteq h3, Function.update_noteq h2, Function.update_noteq h1,
        Function.update_noteq h0]
      simp [memOf, h4]
  unfold primerArrInit
  rw [hmem]

/-- Reading a full overlay back cell by cell recovers the list. -/
lemma map_memOf_range (P : List ℕ) (junk : ℕ → ℕ) :
    (List.range P.length).map (memOf P junk) = P := by
  apply List.ext_get
  · simp
  · intro n h1 h2
    simp only [List.get_eq_getElem, List.getElem_map, List.getElem_range]
    rw [memOf_lt P junk n h2]
    rw [List.getD_eq_getElem P 0 h2]

/-- Reading back the filled cells of an overlay recovers the list. -/
lemma arrPrimes_memOf (P : List ℕ) (junk : ℕ → ℕ) (idx cand : ℕ)
    (hlen : P.length = idx + 1) :
    arrPrimes (ArrState.mk (memOf P junk) idx cand) = P := by
  show (List.range (idx + 1)).map (memOf P junk) = P
  rw [← hlen]
  exact map_memOf_range P junk

/-! ### TrialRunner lemmas -/

lemma elapsedSeconds_nonneg (start stop : ℕ) : 0 ≤ elapsedSeconds start stop := by
  unfold elapsedSeconds
  apply div_nonneg
  · exact Nat.cast_nonneg _
  · norm_num

lemma runTrials_concat (ps : List (ℕ × ℕ)) (p : ℕ × ℕ) :
    runTrials (ps ++ [p])
      = ((onTrigger (runTrials ps).1 (elapsedSeconds p.1 p.2)).1,
        (runTrials ps).2 ++ [(onTrigger (runTrials ps).1 (elapsedSeconds p.1 p.2)).2]) := by
  unfold runTrials
  rw [List.foldl_append]
  rfl

/-- After any sequence of triggers, `passcount` equals the number of
triggers and `total_runs` equals the sum of the elapsed times. -/
lemma runTrials_stats (ps : List (ℕ × ℕ)) :
    (runTrials ps).1.passcount = ps.length
      ∧ (runTrials ps).1.total_runs = (ps.map (fun p => elapsedSeconds p.1 p.2)).sum := by
  induction ps using List.reverseRecOn with
  | nil => exact ⟨rfl, rfl⟩
  | append_singleton ts t ih =>
    obtain ⟨ihp, iht⟩ := ih
    rw [runTrials_concat]
    by_cases h : (runTrials ts).1.passcount + 1 = 1
    · have h0 : ts.length = 0 := by omega
      have hts : ts = [] := List.eq_nil_of_length_eq_zero h0
      subst hts
      refine ⟨?_, ?_⟩
      · simp [onTrigger, runTrials, initialStats]
      · simp [onTrigger, runTrials, initialStats]
    · refine ⟨?_, ?_⟩
      · simp only [onTrigger]
        rw [if_neg h]
        simp [ihp]
      · simp only [onTrigger]
        rw [if_neg h]
        simp [iht]

/-- Shape of every emitted report: the first report carries no pass
number and no average; every other report carries a pass number of at
least 2 (the divisor of the average computation).  Every reported
runtime is nonnegative. -/
lemma runTrials_report_shape (ps : List (ℕ × ℕ)) :
    ∀ r ∈ (runTrials ps).2,
      0 ≤ r.runtime ∧ ((r.pass = none ∧ r.average = none) ∨ ∃ k, r.pass = some k ∧ 2 ≤ k) := by
  induction ps using List.reverseRecOn with
  | nil => intro r hr; exact absurd hr (List.not_mem_nil r)
  | append_singleton ts t ih =>
    intro r hr
    rw [runTrials_concat] at hr
    rcases List.mem_append.mp hr with hold | hnew
    · exact ih r hold
    · have hr2 : r = (onTrigger (runTrials ts).1 (elapsedSeconds t.1 t.2)).2 := by
        simpa using hnew
      subst hr2
      by_cases h : (runTrials ts).1.passcount + 1 = 1
      · constructor
        · simp only [onTrigger]
          rw [if_pos h]
          exact elapsedSeconds_nonneg t.1 t.2
        · left
          simp only [onTrigger]
          rw [if_pos h]
          exact ⟨rfl, rfl⟩
      · constructor
        · simp only [onTrigger]
          rw [if_neg h]
          exact elapsedSeconds_nonneg t.1 t.2
        · right
          refine ⟨(runTrials ts).1.passcount + 1, ?_, by omega⟩
          simp only [onTrigger]
          rw [if_neg h]

/-- The report emitted on the trigger after a nonempty history: it is
the last report, its pass number is the new `passcount`, and its
average is the accumulated total divided by that `passcount`. -/
lemma runTrials_last_report (ts : List (ℕ × ℕ)) (t : ℕ × ℕ) (h : ts ≠ []) :
    ∃ r, (runTrials (ts ++ [t])).2.getLast? = some r
      ∧ r.runtime = elapsedSeconds t.1 t.2
      ∧ r.pass = some (ts.length + 1)
      ∧ r.average
          = some ((((ts ++ [t]).map (fun p => elapsedSeconds p.1 p.2)).sum)
              / ((ts.length + 1 : ℕ) : ℚ)) := by
  obtain ⟨hp, ht⟩ := runTrials_stats ts
  have hne : (runTrials ts).1.passcount + 1 ≠ 1 := by
    have : ts.length ≠ 0 := fun h0 => h (List.eq_nil_of_length_eq_zero h0)
    omega
  rw [runTrials_concat]
  refine ⟨(onTrigger (runTrials ts).1 (elapsedSeconds t.1 t.2)).2, ?_, ?_, ?_, ?_⟩
  · simp
  · simp only [onTrigger]
    rw [if_neg hne]
  · simp only [onTrigger]
    rw [if_neg hne, hp]
  · simp only [onTrigger]
    rw [if_neg hne, hp, ht]
    rw [List.map_append, List.sum_append]
    simp

/-! ### Claim theorems -/

/-- C1.  The claim states that the generation loop iterates while
`index < capacity - 1` and never stores a prime at any index at or
beyond `capacity`.  The source loop (line 142) actually iterates while
`index < capacity`, where `index` is the index of the last *filled*
slot, so the run with capacity 4 performs a further search, stores a
fifth value, and its final store lands at index 4 = capacity, one past
the last valid slot of the C array.  This theorem evaluates the embedded
code at that failing input. -/
theorem primer_overfills_buffer :
    (primer 4).primes.length = 5 ∧ (primer 4).index = 4 := by
  constructor <;> decide

/-- C2.  Throughout every `generate(C)` call with `C > 3`, after the
buffer is seeded with 2, 3, 5, 7, the filled portion always holds
exactly the first `index + 1` primes: its length is `index + 1`, it is
strictly increasing, its members are exactly the primes up to the
current candidate, and no prime below a stored prime is missing (no
gaps, and strict sortedness gives no duplicates).  Quantifying over the
fuel covers every iteration of the loop, so the invariant is preserved
by every store. -/
theorem generation_buffer_invariant (capacity fuel : ℕ) (hcap : 3 < capacity) :
    (loop capacity fuel primerInit).primes.length = (loop capacity fuel primerInit).index + 1
    ∧ List.Sorted (· < ·) (loop capacity fuel primerInit).primes
    ∧ (∀ p, p ∈ (loop capacity fuel primerInit).primes
        ↔ (Nat.Prime p ∧ p ≤ (loop capacity fuel primerInit).candidate))
    ∧ (∀ p q, p ∈ (loop capacity fuel primerInit).primes → Nat.Prime q → q < p
        → q ∈ (loop capacity fuel primerInit).primes) := by
  have h := primerInv_loop capacity fuel primerInit primerInv_init
  refine ⟨h.2.2.1, h.1, h.2.1, ?_⟩
  intro p q hp hq hlt
  exact (h.2.1 q).mpr ⟨hq, le_trans (le_of_lt hlt) ((h.2.1 p).mp hp).2⟩

/-- Witness for C2 at capacity 5 after two iterations. -/
theorem generation_buffer_invariant_witness :
    3 < 5
    ∧ ((loop 5 2 primerInit).primes.length = (loop 5 2 primerInit).index + 1
      ∧ List.Sorted (· < ·) (loop 5 2 primerInit).primes
      ∧ (∀ p, p ∈ (loop 5 2 primerInit).primes
          ↔ (Nat.Prime p ∧ p ≤ (loop 5 2 primerInit).candidate))
      ∧ (∀ p q, p ∈ (loop 5 2 primerInit).primes → Nat.Prime q → q < p
          → q ∈ (loop 5 2 primerInit).primes)) :=
  ⟨by decide, generation_buffer_invariant 5 2 (by decide)⟩

/-- C3.  Whenever the loop is about to run another iteration
(`index < capacity`), the inner divisor scan on the next candidate stops
inside the buffer tail `primes[1..index]`: some scanned cell fails the
loop condition or triggers the break, so the scan never evaluates
`primes[count]` for a `count` beyond `index`, the highest filled index
(the tail scanned has exactly `index` cells). -/
theorem scan_reads_only_filled_cells (capacity fuel : ℕ) (hcap : 3 < capacity)
    (hrun : (loop capacity fuel primerInit).index < capacity) :
    scanStops (searchLimit ((loop capacity fuel primerInit).candidate + 2))
        ((loop capacity fuel primerInit).candidate + 2)
        ((loop capacity fuel primerInit).primes.drop 1)
    ∧ ((loop capacity fuel primerInit).primes.drop 1).length
        = (loop capacity fuel primerInit).index := by
  have h := primerInv_loop capacity fuel primerInit primerInv_init
  refine ⟨scanStops_of_inv _ h, ?_⟩
  rw [List.length_drop, h.2.2.1]
  omega

/-- Witness for C3 at capacity 5, before the first iteration. -/
theorem scan_reads_only_filled_cells_witness :
    (3 < 5 ∧ (loop 5 0 primerInit).index < 5)
    ∧ (scanStops (searchLimit ((loop 5 0 primerInit).candidate + 2))
        ((loop 5 0 primerInit).candidate + 2)
        ((loop 5 0 primerInit).primes.drop 1)
      ∧ ((loop 5 0 primerInit).primes.drop 1).length = (loop 5 0 primerInit).index) :=
  ⟨⟨by decide, by decide⟩, scan_reads_only_filled_cells 5 0 (by decide) (by decide)⟩

/-- C4.  The claim states `generate(4)` returns exactly {2,3,5,7} with
no further search.  Because the loop guard is `index < capacity` with
`index` pointing at the last filled slot, the seeded state (index 3)
does not satisfy the exit condition at capacity 4: the code searches on,
finds 11 and stores it at index 4, past the last valid slot.  This
theorem evaluates the embedded code at that input. -/
theorem generate_four_searches_beyond_seed :
    (primer 4).primes = [2, 3, 5, 7, 11] := by decide

/-- C5.  The claim states `generate(C)` with `C ≤ 3` fails with a
`CapacityError` before seeding.  The source has no capacity check of any
kind (its capacity is the compile-time constant `PRIMECOUNT` and
`primer`'s only parameter is `firstpass`): at capacity 3 the four
seeding writes of lines 130-133 still all happen - the fourth lands at
index 3, past the end of a 3-slot buffer - and the call returns
normally.  This theorem evaluates the embedded code at that input: four
values stored, more than the capacity, and no error value exists in
`primer`'s type. -/
theorem capacity_three_not_rejected :
    (primer 3).primes = [2, 3, 5, 7] ∧ 3 < (primer 3).primes.length := by
  constructor <;> decide

/-- C6.  The generator is deterministic and free of hidden state across
calls: its only conceivable cross-call channel is the uninitialised
local array (whatever junk earlier calls left on the stack), and two
runs whose arrays start with arbitrary, different junk contents produce
the identical sequence of primes at every iteration count. -/
theorem primer_no_hidden_state (capacity fuel : ℕ) (junkA junkB : ℕ → ℕ)
    (hcap : 3 < capacity) :
    arrPrimes (loopArr capacity fuel (primerArrInit junkA))
      = arrPrimes (loopArr capacity fuel (primerArrInit junkB)) := by
  have key : ∀ junk : ℕ → ℕ, arrPrimes (loopArr capacity fuel (primerArrInit junk))
      = (loop capacity fuel primerInit).primes := by
    intro junk
    rw [primerArrInit_eq]
    have hinit : ArrState.mk (memOf [2, 3, 5, 7] junk) 3 7
        = ArrState.mk (memOf primerInit.primes junk) primerInit.index primerInit.candidate :=
      rfl
    rw [hinit, loopArr_eq_loop capacity fuel primerInit junk primerInv_init]
    exact arrPrimes_memOf _ junk _ _
      ((primerInv_loop capacity fuel primerInit primerInv_init).2.2.1)
  rw [key junkA, key junkB]

/-- Witness for C6: two concrete junk contents at capacity 4. -/
theorem primer_no_hidden_state_witness :
    3 < 4
    ∧ arrPrimes (loopArr 4 2 (primerArrInit (fun _ => 0)))
        = arrPrimes (loopArr 4 2 (primerArrInit (fun _ => 99))) :=
  ⟨by decide, primer_no_hidden_state 4 2 (fun _ => 0) (fun _ => 99) (by decide)⟩

/-- C7.  After the k-th trigger the running average
`total_runs / passcount` equals the arithmetic mean of the first k
elapsed times (at k = 1 this is the single sample); for k ≥ 2 the
report emitted on the k-th trigger carries exactly that mean; and every
reported elapsed time is nonnegative (it is a wrapped `uint64_t` timer
difference divided by 10^6). -/
theorem running_average_is_mean (ps : List (ℕ × ℕ)) (k : ℕ) (hk : 1 ≤ k)
    (hkle : k ≤ ps.length) :
    (runTrials (ps.take k)).1.total_runs / (((runTrials (ps.take k)).1.passcount : ℕ) : ℚ)
        = ((ps.take k).map (fun p => elapsedSeconds p.1 p.2)).sum / ((k : ℕ) : ℚ)
    ∧ (∀ r ∈ (runTrials (ps.take k)).2, 0 ≤ r.runtime)
    ∧ (2 ≤ k → ∀ r, (runTrials (ps.take k)).2.getLast? = some r →
        r.average
          = some (((ps.take k).map (fun p => elapsedSeconds p.1 p.2)).sum / ((k : ℕ) : ℚ))) := by
  obtain ⟨hp, ht⟩ := runTrials_stats (ps.take k)
  have hlen : (ps.take k).length = k := by rw [List.length_take]; omega
  refine ⟨by rw [hp, ht, hlen], ?_, ?_⟩
  · intro r hr
    exact (runTrials_report_shape (ps.take k) r hr).1
  · intro h2 r hr
    obtain ⟨j, rfl⟩ : ∃ j, k = j + 1 := ⟨k - 1, by omega⟩
    have hjlt : j < ps.length := by omega
    have htake : ps.take (j + 1) = ps.take j ++ [ps.get ⟨j, hjlt⟩] := by
      rw [List.take_succ, List.getElem?_eq_getElem hjlt]
      simp
    have hjlen : (ps.take j).length = j := by rw [List.length_take]; omega
    have hne : ps.take j ≠ [] := by
      intro hnil
      rw [hnil] at hjlen
      simp at hjlen
      omega
    obtain ⟨r0, hlast, hrt, hpass, havg⟩ :=
      runTrials_last_report (ps.take j) (ps.get ⟨j, hjlt⟩) hne
    rw [htake] at hr
    rw [hlast] at hr
    have hreq : r = r0 := by injection hr with h; exact h.symm
    subst hreq
    rw [havg, ← htake, hjlen]

/-- Witness for C7 at the two-trigger run (elapsed 1 s then 3 s), k = 2. -/
theorem running_average_is_mean_witness :
    (1 ≤ 2 ∧ 2 ≤ ([((0 : ℕ), (1000000 : ℕ)), (2000000, 5000000)] : List (ℕ × ℕ)).length)
    ∧ ((runTrials (([((0 : ℕ), (1000000 : ℕ)), (2000000, 5000000)]).take 2)).1.total_runs
          / (((runTrials (([((0 : ℕ), (1000000 : ℕ)), (2000000, 5000000)]).take 2)).1.passcount : ℕ) : ℚ)
        = ((([((0 : ℕ), (1000000 : ℕ)), (2000000, 5000000)]).take 2).map
            (fun p => elapsedSeconds p.1 p.2)).sum / ((2 : ℕ) : ℚ)
      ∧ (∀ r ∈ (runTrials (([((0 : ℕ), (1000000 : ℕ)), (2000000, 5000000)]).take 2)).2,
          0 ≤ r.runtime)
      ∧ (2 ≤ 2 → ∀ r,
          (runTrials (([((0 : ℕ), (1000000 : ℕ)), (2000000, 5000000)]).take 2)).2.getLast?
            = some r →
          r.average
            = some (((([((0 : ℕ), (1000000 : ℕ)), (2000000, 5000000)]).take 2).map
                (fun p => elapsedSeconds p.1 p.2)).sum / ((2 : ℕ) : ℚ)))) :=
  ⟨⟨by decide, by decide⟩,
    running_average_is_mean [(0, 1000000), (2000000, 5000000)] 2 (by decide) (by decide)⟩

/-- C8 counterexample.  The claim states the first trigger's report
carries pass count 1 and average 1.000.  In the source the first pass
prints only `Runtime = %f` (line 101): on the run with elapsed times
1 s and 3 s, the first report has no pass field and no average field,
so it does not state pass 1 and average 1. -/
theorem first_report_has_no_pass_or_average :
    (runTrials [(0, 1000000), (2000000, 5000000)]).2.head?.map (fun r => (r.pass, r.average))
        = some (none, none)
    ∧ (runTrials [(0, 1000000), (2000000, 5000000)]).2.head?.map (fun r => (r.pass, r.average))
        ≠ some (some 1, some 1) := by
  have h1 : (runTrials [(0, 1000000), (2000000, 5000000)]).2.head?.map
      (fun r => (r.pass, r.average)) = some (none, none) := by
    simp [runTrials, onTrigger, elapsedSeconds, initialStats]
  refine ⟨h1, ?_⟩
  rw [h1]
  simp

/-- C8 as amended.  On two consecutive triggers with measured elapsed
times 1.000 s and 3.000 s, the first report states only the runtime
1.000 (no pass count, no average), and the second states runtime 3.000,
pass 2 and average 2.000. -/
theorem trial_scenario_reports :
    (runTrials [(0, 1000000), (2000000, 5000000)]).2
      = [Report.mk 1 none none, Report.mk 3 (some 2) (some 2)] := by
  simp [runTrials, onTrigger, elapsedSeconds, initialStats]
  norm_num

/-- C9.  The search bound computed at line 147 for every candidate
tested by the loop equals the floor of the real square root of that
candidate. -/
theorem search_limit_is_floor_sqrt (capacity fuel : ℕ) :
    searchLimit ((loop capacity fuel primerInit).candidate + 2)
      = ⌊Real.sqrt (((loop capacity fuel primerInit).candidate + 2 : ℕ) : ℝ)⌋₊ := by
  rw [searchLimit_eq_sqrt]
  exact (Real.nat_floor_real_sqrt_eq_nat_sqrt).symm

/-- C10.  The running-average division `total_runs / passcount`
(line 106) is evaluated only on the non-first branch: every report that
carries an average carries a pass number of at least 2, and that pass
number - the divisor - is positive. -/
theorem average_division_guarded (ps : List (ℕ × ℕ)) (r : Report)
    (hr : r ∈ (runTrials ps).2) (ha : r.average.isSome) :
    ∃ k, r.pass = some k ∧ 2 ≤ k ∧ 0 < ((k : ℕ) : ℚ) := by
  rcases (runTrials_report_shape ps r hr).2 with ⟨hn, han⟩ | ⟨k, hk, h2⟩
  · rw [han] at ha
    exact absurd ha (by simp)
  · refine ⟨k, hk, h2, ?_⟩
    exact_mod_cast (by omega : 0 < k)

/-- Witness for C10 on a two-trigger run. -/
theorem average_division_guarded_witness :
    Report.mk 0 (some 2) (some 0) ∈ (runTrials [(0, 0), (0, 0)]).2
    ∧ ∃ k, (Report.mk 0 (some 2) (some 0)).pass = some k ∧ 2 ≤ k ∧ 0 < ((k : ℕ) : ℚ) := by
  have hmem : Report.mk 0 (some 2) (some 0) ∈ (runTrials [(0, 0), (0, 0)]).2 := by
    simp [runTrials, onTrigger, elapsedSeconds, initialStats]
  exact ⟨hmem, average_division_guarded [(0, 0), (0, 0)] (Report.mk 0 (some 2) (some 0)) hmem rfl⟩
